import Mathlib

/-!
Verification of `find-uniq.py`: a tool that prints paths from a primary
sha256sum-style hash listing whose hash does not appear in any of the
"other" hash listings, skipping paths matched by glob ignore patterns.

Strings are embedded as `List Char` (`Str`).  Python library functions used
by the source (`str.strip`, `str.split(maxsplit=1)`, `os.path.normpath`,
`os.path.basename`, `fnmatch.fnmatch` on a POSIX platform, where
`os.path.normcase` is the identity) are embedded below, followed by the
program's own functions `load_hashes_set`, `print_unique_paths`,
`process_primary_stream` and the `__main__` driver.
-/

abbrev Str := List Char

/-- Whitespace characters recognised by Python's `str.strip()` / `str.split()`
(the ASCII whitespace set; the hash listings consumed by the tool are ASCII). -/
def pyIsSpace (c : Char) : Bool :=
  c = ' ' || c = '\t' || c = '\n' || c = '\r' || c = '\x0b' || c = '\x0c'

/-- Python `s.strip()`: remove leading and trailing whitespace. -/
def pyStrip (s : Str) : Str :=
  ((s.dropWhile pyIsSpace).reverse.dropWhile pyIsSpace).reverse

/-- Python `s.split(maxsplit=1)`: skip leading whitespace; if nothing remains
the result is `[]`; otherwise the first element is the run of non-whitespace
characters, and the remainder (after the following whitespace run) is the
second element when non-empty. -/
def pySplitMax1 (s : Str) : List Str :=
  let s1 := s.dropWhile pyIsSpace
  if s1 = [] then []
  else
    let tok := s1.takeWhile (fun c => !pyIsSpace c)
    let rest := (s1.dropWhile (fun c => !pyIsSpace c)).dropWhile pyIsSpace
    if rest = [] then [tok] else [tok, rest]

/-- Python `path.split('/')` (the component split used by `posixpath.normpath`). -/
def splitOnSep : Str → List Str
  | [] => [[]]
  | c :: rest =>
    match splitOnSep rest with
    | [] => [[]]
    | h :: t => if c = '/' then [] :: h :: t else (c :: h) :: t

/-- The component loop of `posixpath.normpath`: drop empty and `.` components,
resolve `..` against a previous component where POSIX semantics allow it. -/
def normLoop (initial_slashes : Nat) : List Str → List Str → List Str
  | new_comps, [] => new_comps
  | new_comps, comp :: rest =>
    if comp = [] ∨ comp = ['.'] then normLoop initial_slashes new_comps rest
    else if comp ≠ ['.', '.'] ∨ (initial_slashes = 0 ∧ new_comps = []) ∨
        (new_comps ≠ [] ∧ new_comps.getLast? = some ['.', '.']) then
      normLoop initial_slashes (new_comps ++ [comp]) rest
    else if new_comps ≠ [] then normLoop initial_slashes new_comps.dropLast rest
    else normLoop initial_slashes new_comps rest

/-- `os.path.normpath` on POSIX (`posixpath.normpath`): collapse `//` and `.`
segments, resolve `..` where possible, preserve an initial `//` exactly. -/
def normpath (path : Str) : Str :=
  if path = [] then ['.']
  else
    let initial_slashes : Nat :=
      if path.take 1 = ['/'] then
        if path.take 2 = ['/', '/'] ∧ ¬ (path.take 3 = ['/', '/', '/']) then 2 else 1
      else 0
    let comps := splitOnSep path
    let new_comps := normLoop initial_slashes [] comps
    let joined := List.intercalate ['/'] new_comps
    let result := List.replicate initial_slashes '/' ++ joined
    if result = [] then ['.'] else result

/-- `os.path.basename` on POSIX: everything after the last `/`. -/
def basename (p : Str) : Str :=
  (p.reverse.takeWhile (fun c => c ≠ '/')).reverse

/-- One compiled token of a glob pattern, mirroring `fnmatch.translate`:
`*`, `?`, a literal character, or a bracketed character class. -/
inductive GlobTok : Type
  | star : GlobTok
  | anyChar : GlobTok
  | lit : Char → GlobTok
  | cls : Bool → Str → GlobTok
deriving DecidableEq

/-- Scan to the closing `]` of a character class: returns the class body and
the rest of the pattern, or `none` when the `]` is missing. -/
def findClassEnd : Str → Option (Str × Str)
  | [] => none
  | ']' :: rest => some ([], rest)
  | c :: rest =>
    match findClassEnd rest with
    | none => none
    | some (content, r) => some (c :: content, r)

/-- Parse a character class given the pattern text after `[`, per
`fnmatch.translate`: a leading `!` negates; a `]` immediately after `[` or
`[!` is part of the class body; an unterminated class means the `[` is a
literal (`none`). -/
def parseClass (p : Str) : Option (Bool × Str × Str) :=
  let neg := match p with
    | '!' :: _ => true
    | _ => false
  let p1 := match p with
    | '!' :: rest => rest
    | _ => p
  match p1 with
  | ']' :: rest2 =>
    match findClassEnd rest2 with
    | none => none
    | some (content, r) => some (neg, ']' :: content, r)
  | _ =>
    match findClassEnd p1 with
    | none => none
    | some (content, r) => some (neg, content, r)

/-- Does character `c` match the body of a character class?  `a-b` denotes a
codepoint range; a `-` without a right endpoint is a literal. -/
def matchClassChars : Str → Char → Bool
  | [], _ => false
  | a :: '-' :: b :: rest, c =>
    if a ≤ c ∧ c ≤ b then true else matchClassChars rest c
  | a :: rest, c => if c = a then true else matchClassChars rest c

/-- Compile a glob pattern into tokens (as `fnmatch.translate` compiles it to
a regex).  `fuel` bounds the recursion; `compilePat` supplies `p.length`,
which suffices because every step consumes at least one pattern character. -/
def compilePatGo : Nat → Str → List GlobTok
  | 0, _ => []
  | _ + 1, [] => []
  | fuel + 1, '*' :: rest => .star :: compilePatGo fuel rest
  | fuel + 1, '?' :: rest => .anyChar :: compilePatGo fuel rest
  | fuel + 1, '[' :: rest =>
    match parseClass rest with
    | some (neg, content, after) => .cls neg content :: compilePatGo fuel after
    | none => .lit '[' :: compilePatGo fuel rest
  | fuel + 1, c :: rest => .lit c :: compilePatGo fuel rest

def compilePat (p : Str) : List GlobTok := compilePatGo p.length p

/-- Match a compiled glob pattern against a string.  `*` matches any sequence
of characters (regex `.*`, path separators included), `?` any single
character, a class one character from (or outside) the class. -/
def matchToks : List GlobTok → Str → Bool
  | [], s => s.isEmpty
  | .star :: trest, s => s.tails.any (fun suf => matchToks trest suf)
  | .anyChar :: trest, s =>
    match s with
    | [] => false
    | _ :: srest => matchToks trest srest
  | .lit c :: trest, s =>
    match s with
    | [] => false
    | d :: srest => d = c && matchToks trest srest
  | .cls neg content :: trest, s =>
    match s with
    | [] => false
    | d :: srest => (neg != matchClassChars content d) && matchToks trest srest

/-- `fnmatch.fnmatch(name, pat)` on POSIX, where `os.path.normcase` is the
identity: whole-string shell-style wildcard matching. -/
def fnmatch (name pat : Str) : Bool := matchToks (compilePat pat) name

/-- The `for pat in ignore_patterns` loop shared by `print_unique_paths` and
`process_primary_stream` (lines 62-65 and 91-94): sets `skip` and breaks at
the first pattern matching the normalized path, the raw path, or the
basename. -/
def ignoreLoop (norm file_path : Str) : List Str → Bool
  | [] => false
  | pat :: rest =>
    if fnmatch norm pat || fnmatch file_path pat || fnmatch (basename file_path) pat then true
    else ignoreLoop norm file_path rest

/-- `norm = os.path.normpath(p)` followed by the pattern loop: the decision
whether a path is skipped because of the ignore patterns. -/
def matchesIgnorePatterns (file_path : Str) (ignore_patterns : List Str) : Bool :=
  ignoreLoop (normpath file_path) file_path ignore_patterns

/-- The loop body accumulation of `load_hashes_set` (lines 31-39): strip each
line, skip blanks, split with `maxsplit=1`, and add the first field to the
set of shas. -/
def loadHashesGo (shas : Finset Str) : List Str → Finset Str
  | [] => shas
  | line :: rest =>
    let l := pyStrip line
    if l = [] then loadHashesGo shas rest
    else
      match pySplitMax1 l with
      | [] => loadHashesGo shas rest
      | sha :: _ => loadHashesGo (insert sha shas) rest

/-- `load_hashes_set(path)`: the set of shas of a sha256sum-format file,
given the file's lines. -/
def load_hashes_set (lines : List Str) : Finset Str := loadHashesGo ∅ lines

/-- Parsing shared by the per-line handling of `process_primary_stream`
(lines 79-86): strip; `None` for a blank line or an empty split; otherwise
the sha and the path (`parts[1] if len(parts) > 1 else ""`). -/
def parseLine (line : Str) : Option (Str × Str) :=
  let l := pyStrip line
  if l = [] then none
  else
    match pySplitMax1 l with
    | [] => none
    | sha :: parts1 => some (sha, parts1.headD [])

/-- `process_primary_stream(primary_path, other_shas, ignore_patterns)`
(lines 71-97), with the primary file given as its list of lines and the
printed output returned as a list of paths, in print order. -/
def process_primary_stream (primaryLines : List Str) (other_shas : Finset Str)
    (ignore_patterns : List Str) : List Str :=
  match primaryLines with
  | [] => []
  | line :: rest =>
    let l := pyStrip line
    if l = [] then process_primary_stream rest other_shas ignore_patterns
    else
      match pySplitMax1 l with
      | [] => process_primary_stream rest other_shas ignore_patterns
      | sha :: parts1 =>
        let file_path := parts1.headD []
        if sha ∈ other_shas then process_primary_stream rest other_shas ignore_patterns
        else if matchesIgnorePatterns file_path ignore_patterns then
          process_primary_stream rest other_shas ignore_patterns
        else file_path :: process_primary_stream rest other_shas ignore_patterns

/-- The `for p in paths` loop of `print_unique_paths` (lines 58-68): print
each path of a group that no ignore pattern matches. -/
def emitPaths (paths : List Str) (ignore_patterns : List Str) : List Str :=
  match paths with
  | [] => []
  | p :: rest =>
    if matchesIgnorePatterns p ignore_patterns then emitPaths rest ignore_patterns
    else p :: emitPaths rest ignore_patterns

/-- `print_unique_paths(primary_map, other_shas, ignore_patterns)`
(lines 47-68), with the `Dict[str, List[str]]` in insertion order as an
association list and the printed output returned as a list of paths. -/
def print_unique_paths (primary_map : List (Str × List Str)) (other_shas : Finset Str)
    (ignore_patterns : List Str) : List Str :=
  match primary_map with
  | [] => []
  | (sha, paths) :: rest =>
    if sha ∈ other_shas then print_unique_paths rest other_shas ignore_patterns
    else emitPaths paths ignore_patterns ++ print_unique_paths rest other_shas ignore_patterns

/-- Append a path under a sha in an insertion-ordered mapping, as
`dict.setdefault(sha, []).append(path)` would. -/
def insertPath (m : List (Str × List Str)) (sha p : Str) : List (Str × List Str) :=
  match m with
  | [] => [(sha, [p])]
  | (k, ps) :: rest =>
    if k = sha then (k, ps ++ [p]) :: rest else (k, ps) :: insertPath rest sha p

/-- Modelled from the spec: the sha-to-paths mapping "built from a primary
listing" that `print_unique_paths` and `get_files_by_sha` consume
(`Dict[str, List[str]]`, per the module docstring) — no builder for it
exists in the source, so it is modelled as grouping the listing's records
by sha in insertion order, each record parsed exactly as the stream parses
its lines. -/
def build_primary_map (lines : List Str) : List (Str × List Str) :=
  lines.foldl
    (fun m line =>
      match parseLine line with
      | none => m
      | some r => insertPath m r.1 r.2)
    []

/-- The accumulation of `other_shas` in `__main__` (lines 121-123):
`other_shas.update(load_hashes_set(fpath))` over the other files, each given
as its list of lines. -/
def buildOtherShasGo (acc : Finset Str) : List (List Str) → Finset Str
  | [] => acc
  | f :: rest => buildOtherShasGo (acc ∪ load_hashes_set f) rest

/-- The combined Comparison Set of `__main__`: the union of the shas of all
other files. -/
def build_other_shas (files : List (List Str)) : Finset Str :=
  buildOtherShasGo ∅ files

/-- Errors of the `__main__` driver: the `parser.error` usage failure, or a
file that cannot be read. -/
inductive CliError : Type
  | usageError : Str → CliError
  | ioError : Str → CliError
deriving DecidableEq

/-- The message passed to `parser.error` when no other file is given
(line 118). -/
def usage_error_msg : Str :=
  ("must provide at least one OTHER_HASHES_FILE to compare against".toList)

/-- Reading a file from an abstract file system (path to lines); a missing
file is the I/O failure the Python `open` would raise. -/
def readFile (fs : Str → Option (List Str)) (path : Str) : Except CliError (List Str) :=
  match fs path with
  | some lines => Except.ok lines
  | none => Except.error (CliError.ioError path)

/-- The loading loop of `__main__` (lines 121-123) over an abstract file
system, aborting at the first unreadable file. -/
def loadOthers (fs : Str → Option (List Str)) (acc : Finset Str) :
    List Str → Except CliError (Finset Str)
  | [] => Except.ok acc
  | fpath :: rest =>
    match readFile fs fpath with
    | Except.error e => Except.error e
    | Except.ok lines => loadOthers fs (acc ∪ load_hashes_set lines) rest

/-- The `__main__` driver (lines 114-125) after argument parsing: fail with
the usage error when no other file is supplied (before touching any file),
otherwise build the Comparison Set and stream the primary file; the value is
the printed output. -/
def mainRun (fs : Str → Option (List Str)) (primary : Str) (others : List Str)
    (ignore : List Str) : Except CliError (List Str) :=
  if others = [] then Except.error (CliError.usageError usage_error_msg)
  else
    match loadOthers fs ∅ others with
    | Except.error e => Except.error e
    | Except.ok other_shas =>
      match readFile fs primary with
      | Except.error e => Except.error e
      | Except.ok primaryLines =>
        Except.ok (process_primary_stream primaryLines other_shas ignore)

/-- The record flattening of an insertion-ordered mapping: every `(sha, path)`
pair it holds, in mapping order. -/
def mapPairs : List (Str × List Str) → List (Str × Str)
  | [] => []
  | (k, ps) :: rest => ps.map (fun p => (k, p)) ++ mapPairs rest

/-- The per-record output decision of the stream filter: `none` when the sha
has a duplicate elsewhere or a pattern matches the path, otherwise the path. -/
def emitDecision (shas : Finset Str) (pats : List Str) (r : Str × Str) : Option Str :=
  if r.1 ∈ shas then none
  else if matchesIgnorePatterns r.2 pats then none
  else some r.2

/-! ### Helper lemmas about the string primitives -/

theorem dropWhile_head_false (p : Char → Bool) :
    ∀ (l : Str) (x : Char) (xs : Str), l.dropWhile p = x :: xs → p x = false := by
  intro l
  induction l with
  | nil => intro x xs h; simp [List.dropWhile] at h
  | cons c cs ih =>
    intro x xs h
    by_cases hc : p c
    · rw [List.dropWhile_cons, if_pos hc] at h
      exact ih x xs h
    · rw [List.dropWhile_cons, if_neg hc] at h
      cases h
      simpa using hc

theorem exists_prepend_dropWhile (p : Char → Bool) :
    ∀ l : Str, ∃ t : Str, t ++ l.dropWhile p = l := by
  intro l
  induction l with
  | nil => exact ⟨[], rfl⟩
  | cons c cs ih =>
    by_cases hc : p c
    · obtain ⟨t, ht⟩ := ih
      exact ⟨c :: t, by rw [List.dropWhile_cons, if_pos hc, List.cons_append, ht]⟩
    · exact ⟨[], by rw [List.dropWhile_cons, if_neg hc, List.nil_append]⟩

theorem pyStrip_head_false (s : Str) (x : Char) (xs : Str) (h : pyStrip s = x :: xs) :
    pyIsSpace x = false := by
  obtain ⟨t, ht⟩ := exists_prepend_dropWhile pyIsSpace (s.dropWhile pyIsSpace).reverse
  have hw : ((s.dropWhile pyIsSpace).reverse.dropWhile pyIsSpace).reverse = x :: xs := h
  have hu : s.dropWhile pyIsSpace = x :: (xs ++ t.reverse) := by
    calc s.dropWhile pyIsSpace
        = (s.dropWhile pyIsSpace).reverse.reverse := (List.reverse_reverse _).symm
      _ = (t ++ (s.dropWhile pyIsSpace).reverse.dropWhile pyIsSpace).reverse := by rw [ht]
      _ = ((s.dropWhile pyIsSpace).reverse.dropWhile pyIsSpace).reverse ++ t.reverse := by
          rw [List.reverse_append]
      _ = (x :: xs) ++ t.reverse := by rw [hw]
      _ = x :: (xs ++ t.reverse) := by rw [List.cons_append]
  exact dropWhile_head_false pyIsSpace s x (xs ++ t.reverse) hu

theorem dropWhile_pyStrip (s : Str) : (pyStrip s).dropWhile pyIsSpace = pyStrip s := by
  cases hs : pyStrip s with
  | nil => simp
  | cons x xs =>
    have hx := pyStrip_head_false s x xs hs
    rw [List.dropWhile_cons, if_neg (by simp [hx])]

theorem pySplitMax1_strip (s : Str) (h : pyStrip s ≠ []) :
    ∃ parts1 : List Str,
      pySplitMax1 (pyStrip s) =
        ((pyStrip s).takeWhile (fun c => !pyIsSpace c)) :: parts1 := by
  simp only [pySplitMax1, dropWhile_pyStrip, if_neg h]
  split
  · exact ⟨[], rfl⟩
  · exact ⟨[_], rfl⟩

theorem loadHashesGo_mem (s : Str) :
    ∀ (lines : List Str) (acc : Finset Str),
      s ∈ loadHashesGo acc lines ↔
        s ∈ acc ∨ ∃ line ∈ lines, pyStrip line ≠ [] ∧
          (pyStrip line).takeWhile (fun c => !pyIsSpace c) = s := by
  intro lines
  induction lines with
  | nil => intro acc; simp [loadHashesGo]
  | cons line rest ih =>
    intro acc
    by_cases hl : pyStrip line = []
    · have hstep : loadHashesGo acc (line :: rest) = loadHashesGo acc rest := by
        simp [loadHashesGo, hl]
      rw [hstep, ih]
      constructor
      · rintro (h1 | ⟨l', hl', h3⟩)
        · exact Or.inl h1
        · exact Or.inr ⟨l', List.mem_cons_of_mem _ hl', h3⟩
      · rintro (h1 | ⟨l', hl', hne, htok⟩)
        · exact Or.inl h1
        · rcases List.mem_cons.mp hl' with rfl | hmem
          · exact absurd hl hne
          · exact Or.inr ⟨l', hmem, hne, htok⟩
    · obtain ⟨parts1, hp⟩ := pySplitMax1_strip line hl
      have hstep : loadHashesGo acc (line :: rest) =
          loadHashesGo (insert ((pyStrip line).takeWhile (fun c => !pyIsSpace c)) acc) rest := by
        simp [loadHashesGo, hl, hp]
      rw [hstep, ih]
      simp only [Finset.mem_insert]
      constructor
      · rintro ((h1 | h2) | ⟨l', hl', h3⟩)
        · exact Or.inr ⟨line, List.mem_cons_self _ _, hl, h1.symm⟩
        · exact Or.inl h2
        · exact Or.inr ⟨l', List.mem_cons_of_mem _ hl', h3⟩
      · rintro (h1 | ⟨l', hl', hne, htok⟩)
        · exact Or.inl (Or.inr h1)
        · rcases List.mem_cons.mp hl' with rfl | hmem
          · exact Or.inl (Or.inl htok.symm)
          · exact Or.inr ⟨l', hmem, hne, htok⟩

/-- C4: `load_hashes_set` returns exactly the set of first whitespace-delimited
tokens of the lines that are non-empty after trimming; blank-after-trim lines
contribute nothing, and the token is accepted as-is (no further condition on
its length or characters). -/
theorem c4_load_hashes_set_exact (lines : List Str) (s : Str) :
    s ∈ load_hashes_set lines ↔
      ∃ line ∈ lines, pyStrip line ≠ [] ∧
        (pyStrip line).takeWhile (fun c => !pyIsSpace c) = s := by
  rw [load_hashes_set, loadHashesGo_mem]
  simp

/-- C10: a line that is non-empty after trimming always splits into at least
one token under `split(maxsplit=1)`, so the `if not parts: continue` branches
of `load_hashes_set` and `process_primary_stream` are unreachable and
`parts[0]` always exists. -/
theorem c10_nonblank_split_nonempty (line : Str) (h : pyStrip line ≠ []) :
    pySplitMax1 (pyStrip line) ≠ [] := by
  obtain ⟨parts1, hp⟩ := pySplitMax1_strip line h
  simp [hp]

theorem c10_nonblank_split_nonempty_witness :
    pyStrip ("a b".toList) ≠ [] ∧ pySplitMax1 (pyStrip ("a b".toList)) ≠ [] :=
  ⟨by decide, c10_nonblank_split_nonempty ("a b".toList) (by decide)⟩

theorem buildOtherShasGo_mem (h : Str) :
    ∀ (files : List (List Str)) (acc : Finset Str),
      h ∈ buildOtherShasGo acc files ↔ h ∈ acc ∨ ∃ f ∈ files, h ∈ load_hashes_set f := by
  intro files
  induction files with
  | nil => intro acc; simp [buildOtherShasGo]
  | cons f rest ih =>
    intro acc
    have hstep : buildOtherShasGo acc (f :: rest) =
        buildOtherShasGo (acc ∪ load_hashes_set f) rest := rfl
    rw [hstep, ih]
    simp only [Finset.mem_union, List.mem_cons]
    constructor
    · rintro ((h1 | h2) | ⟨g, hg, h3⟩)
      · exact Or.inl h1
      · exact Or.inr ⟨f, Or.inl rfl, h2⟩
      · exact Or.inr ⟨g, Or.inr hg, h3⟩
    · rintro (h1 | ⟨g, (rfl | hg), h3⟩)
      · exact Or.inl (Or.inl h1)
      · exact Or.inl (Or.inr h3)
      · exact Or.inr ⟨g, hg, h3⟩

theorem build_other_shas_mem (h : Str) (files : List (List Str)) :
    h ∈ build_other_shas files ↔ ∃ f ∈ files, h ∈ load_hashes_set f := by
  rw [build_other_shas, buildOtherShasGo_mem]
  simp

theorem buildOtherShasGo_append (g : List Str) :
    ∀ (fs : List (List Str)) (acc : Finset Str),
      buildOtherShasGo acc (fs ++ [g]) = buildOtherShasGo acc fs ∪ load_hashes_set g := by
  intro fs
  induction fs with
  | nil => intro acc; rfl
  | cons f rest ih =>
    intro acc
    rw [List.cons_append]
    exact ih (acc ∪ load_hashes_set f)

/-- C5: the Comparison Set is the union of the hashes of every comparison
file, and adding a comparison file contributing no new hash leaves the
program's output unchanged (set semantics: no double-counting). -/
theorem c5_comparison_set_union (files : List (List Str)) (g : List Str)
    (hsub : load_hashes_set g ⊆ build_other_shas files) :
    (∀ h : Str, h ∈ build_other_shas files ↔ ∃ f ∈ files, h ∈ load_hashes_set f) ∧
      ∀ (lines : List Str) (pats : List Str),
        process_primary_stream lines (build_other_shas (files ++ [g])) pats =
          process_primary_stream lines (build_other_shas files) pats := by
  constructor
  · intro h; exact build_other_shas_mem h files
  · intro lines pats
    have hval : build_other_shas (files ++ [g]) = build_other_shas files := by
      rw [build_other_shas, buildOtherShasGo_append, ← build_other_shas]
      exact Finset.union_eq_left.mpr hsub
    rw [hval]

theorem c5_comparison_set_union_witness :
    load_hashes_set [("aaa y".toList)] ⊆ build_other_shas [[("aaa x".toList)]] ∧
      ((∀ h : Str, h ∈ build_other_shas [[("aaa x".toList)]] ↔
          ∃ f ∈ [[("aaa x".toList)]], h ∈ load_hashes_set f) ∧
        ∀ (lines : List Str) (pats : List Str),
          process_primary_stream lines
              (build_other_shas ([[("aaa x".toList)]] ++ [[("aaa y".toList)]])) pats =
            process_primary_stream lines (build_other_shas [[("aaa x".toList)]]) pats) :=
  ⟨by decide, c5_comparison_set_union [[("aaa x".toList)]] [("aaa y".toList)] (by decide)⟩

/-- C6: with zero other-file arguments the driver fails with the usage error:
the result is an error (non-zero exit), carries no output, and is the same
for every file system, so no file is consulted before the failure. -/
theorem c6_usage_error_without_others (fs : Str → Option (List Str)) (primary : Str)
    (ignore : List Str) :
    mainRun fs primary [] ignore = Except.error (CliError.usageError usage_error_msg) := rfl

theorem emitDecision_eq_some (shas : Finset Str) (pats : List Str) (r : Str × Str) (p : Str) :
    emitDecision shas pats r = some p ↔
      r.1 ∉ shas ∧ matchesIgnorePatterns r.2 pats = false ∧ r.2 = p := by
  unfold emitDecision
  split_ifs with h1 h2
  · simp [h1]
  · simp [h1, h2]
  · simp [h1, h2, eq_comm]

theorem process_primary_stream_eq_filterMap (lines : List Str) (shas : Finset Str)
    (pats : List Str) :
    process_primary_stream lines shas pats =
      lines.filterMap (fun line => (parseLine line).bind (emitDecision shas pats)) := by
  induction lines with
  | nil => rfl
  | cons line rest ih =>
    by_cases hl : pyStrip line = []
    · have h1 : parseLine line = none := by simp [parseLine, hl]
      have h2 : process_primary_stream (line :: rest) shas pats =
          process_primary_stream rest shas pats := by
        simp [process_primary_stream, hl]
      rw [h2]
      simp only [List.filterMap_cons, h1, Option.none_bind]
      exact ih
    · obtain ⟨parts1, hp⟩ := pySplitMax1_strip line hl
      have h1 : parseLine line =
          some ((pyStrip line).takeWhile (fun c => !pyIsSpace c), parts1.head?.getD []) := by
        simp [parseLine, hl, hp]
      by_cases hm : (pyStrip line).takeWhile (fun c => !pyIsSpace c) ∈ shas
      · have h2 : process_primary_stream (line :: rest) shas pats =
            process_primary_stream rest shas pats := by
          simp [process_primary_stream, hl, hp, hm]
        have h3 : emitDecision shas pats
            ((pyStrip line).takeWhile (fun c => !pyIsSpace c), parts1.head?.getD []) = none := by
          simp [emitDecision, hm]
        rw [h2]
        simp only [List.filterMap_cons, h1, Option.some_bind, h3]
        exact ih
      · by_cases hpat : matchesIgnorePatterns (parts1.head?.getD []) pats
        · have h2 : process_primary_stream (line :: rest) shas pats =
              process_primary_stream rest shas pats := by
            simp [process_primary_stream, hl, hp, hm, hpat]
          have h3 : emitDecision shas pats
              ((pyStrip line).takeWhile (fun c => !pyIsSpace c), parts1.head?.getD []) = none := by
            simp [emitDecision, hm, hpat]
          rw [h2]
          simp only [List.filterMap_cons, h1, Option.some_bind, h3]
          exact ih
        · have h2 : process_primary_stream (line :: rest) shas pats =
              parts1.head?.getD [] :: process_primary_stream rest shas pats := by
            simp [process_primary_stream, hl, hp, hm, hpat]
          have h3 : emitDecision shas pats
              ((pyStrip line).takeWhile (fun c => !pyIsSpace c), parts1.head?.getD []) =
                some (parts1.head?.getD []) := by
            simp [emitDecision, hm, hpat]
          rw [h2]
          simp only [List.filterMap_cons, h1, Option.some_bind, h3]
          rw [ih]

/-- C2: the emitted paths are exactly a `filterMap` of the primary lines in
order: each qualifying line contributes its path at its own position, once
per line (duplicate qualifying lines are emitted once each, not
deduplicated). -/
theorem c2_output_order_and_multiplicity (lines : List Str) (shas : Finset Str)
    (pats : List Str) :
    process_primary_stream lines shas pats =
      lines.filterMap (fun line => (parseLine line).bind (emitDecision shas pats)) :=
  process_primary_stream_eq_filterMap lines shas pats

/-- C1: a path is printed iff some primary line parses to a record with that
path whose hash is in no other file's hash set and whose path no ignore
pattern matches. -/
theorem c1_output_set_exact (lines : List Str) (others : List (List Str))
    (pats : List Str) (p : Str) :
    p ∈ process_primary_stream lines (build_other_shas others) pats ↔
      ∃ line ∈ lines, ∃ sha : Str, parseLine line = some (sha, p) ∧
        (∀ f ∈ others, sha ∉ load_hashes_set f) ∧
        matchesIgnorePatterns p pats = false := by
  rw [process_primary_stream_eq_filterMap, List.mem_filterMap]
  constructor
  · rintro ⟨line, hline, hbind⟩
    rcases hpl : parseLine line with _ | ⟨sha, q⟩
    · rw [hpl] at hbind; simp at hbind
    · rw [hpl] at hbind
      simp only [Option.some_bind] at hbind
      rw [emitDecision_eq_some] at hbind
      obtain ⟨hnot, hpat, hq⟩ := hbind
      subst hq
      refine ⟨line, hline, sha, hpl, ?_, hpat⟩
      intro f hf hmem
      exact hnot ((build_other_shas_mem sha others).mpr ⟨f, hf, hmem⟩)
  · rintro ⟨line, hline, sha, hpl, hforall, hpat⟩
    refine ⟨line, hline, ?_⟩
    rw [hpl]
    simp only [Option.some_bind]
    rw [emitDecision_eq_some]
    refine ⟨?_, hpat, rfl⟩
    intro hmem
    obtain ⟨f, hf, hm⟩ := (build_other_shas_mem sha others).mp hmem
    exact hforall f hf hm

theorem ignoreLoop_eq_any (norm fp : Str) :
    ∀ pats : List Str,
      ignoreLoop norm fp pats =
        pats.any (fun pat => fnmatch norm pat || fnmatch fp pat || fnmatch (basename fp) pat) := by
  intro pats
  induction pats with
  | nil => rfl
  | cons pat rest ih =>
    rw [ignoreLoop]
    split_ifs with h
    · simp [List.any_cons, h]
    · simp only [List.any_cons, ih]
      simp [Bool.not_eq_true] at h
      simp [h]

/-- C3: a path is excluded iff some pattern in the list glob-matches the
normalized path, the original path, or the basename; the empty pattern list
never excludes. -/
theorem c3_pattern_matcher_three_forms (p : Str) (pats : List Str) :
    (matchesIgnorePatterns p pats = true ↔
      ∃ pat ∈ pats, fnmatch (normpath p) pat = true ∨ fnmatch p pat = true ∨
        fnmatch (basename p) pat = true) ∧
      matchesIgnorePatterns p [] = false := by
  constructor
  · rw [matchesIgnorePatterns, ignoreLoop_eq_any]
    simp [List.any_eq_true, Bool.or_eq_true, or_assoc]
  · rfl

/-- C7: permuting the ignore-pattern list changes neither the matcher's
verdict on any path nor the program's output. -/
theorem c7_pattern_order_irrelevant (pats pats' : List Str) (hperm : pats.Perm pats') :
    (∀ p : Str, matchesIgnorePatterns p pats = matchesIgnorePatterns p pats') ∧
      ∀ (lines : List Str) (shas : Finset Str),
        process_primary_stream lines shas pats = process_primary_stream lines shas pats' := by
  have hm : ∀ p : Str, matchesIgnorePatterns p pats = matchesIgnorePatterns p pats' := by
    intro p
    rw [matchesIgnorePatterns, matchesIgnorePatterns, ignoreLoop_eq_any, ignoreLoop_eq_any]
    rw [Bool.eq_iff_iff]
    simp only [List.any_eq_true]
    constructor
    · rintro ⟨x, hx, hpx⟩; exact ⟨x, hperm.mem_iff.mp hx, hpx⟩
    · rintro ⟨x, hx, hpx⟩; exact ⟨x, hperm.mem_iff.mpr hx, hpx⟩
  refine ⟨hm, ?_⟩
  intro lines shas
  rw [process_primary_stream_eq_filterMap, process_primary_stream_eq_filterMap]
  have hd : emitDecision shas pats = emitDecision shas pats' := by
    funext r
    rw [emitDecision, emitDecision, hm r.2]
  rw [hd]

theorem c7_pattern_order_irrelevant_witness :
    (("a".toList) :: ("b".toList) :: []).Perm (("b".toList) :: ("a".toList) :: []) ∧
      ((∀ p : Str, matchesIgnorePatterns p (("a".toList) :: ("b".toList) :: []) =
          matchesIgnorePatterns p (("b".toList) :: ("a".toList) :: [])) ∧
        ∀ (lines : List Str) (shas : Finset Str),
          process_primary_stream lines shas (("a".toList) :: ("b".toList) :: []) =
            process_primary_stream lines shas (("b".toList) :: ("a".toList) :: [])) :=
  ⟨List.Perm.swap ("b".toList) ("a".toList) [],
    c7_pattern_order_irrelevant _ _ (List.Perm.swap ("b".toList) ("a".toList) [])⟩

/-- C8: a line whose stripped form is a single token is a valid record with
empty-string path; when its hash is not in the comparison set and the empty
path is not excluded, the program emits an empty output line for it. -/
theorem c8_bare_hash_empty_path (line sha : Str) (shas : Finset Str) (pats : List Str)
    (hsplit : pySplitMax1 (pyStrip line) = [sha])
    (hsha : sha ∉ shas) (hpat : matchesIgnorePatterns [] pats = false) :
    parseLine line = some (sha, []) ∧
      process_primary_stream [line] shas pats = [[]] := by
  have hl : pyStrip line ≠ [] := by
    intro h
    rw [h] at hsplit
    simp [pySplitMax1] at hsplit
  constructor
  · simp [parseLine, hl, hsplit]
  · simp [process_primary_stream, hl, hsplit, hsha, hpat]

theorem c8_bare_hash_empty_path_witness :
    pySplitMax1 (pyStrip ("abc".toList)) = [("abc".toList)] ∧
      ("abc".toList) ∉ (∅ : Finset Str) ∧
      matchesIgnorePatterns [] ([] : List Str) = false ∧
      (parseLine ("abc".toList) = some (("abc".toList), []) ∧
        process_primary_stream [("abc".toList)] ∅ [] = [[]]) :=
  ⟨by decide, by decide, rfl,
    c8_bare_hash_empty_path ("abc".toList) ("abc".toList) ∅ [] (by decide) (by decide) rfl⟩

theorem emitPaths_eq_filter (pats : List Str) :
    ∀ paths : List Str,
      emitPaths paths pats = paths.filter (fun p => !matchesIgnorePatterns p pats) := by
  intro paths
  induction paths with
  | nil => rfl
  | cons p rest ih =>
    by_cases h : matchesIgnorePatterns p pats
    · simp [emitPaths, h, List.filter_cons, ih]
    · simp [emitPaths, h, List.filter_cons, ih]

theorem pairsGroup_filterMap (shas : Finset Str) (pats : List Str) (k : Str) :
    ∀ ps : List Str,
      (ps.map (fun p => (k, p))).filterMap (emitDecision shas pats) =
        if k ∈ shas then [] else ps.filter (fun p => !matchesIgnorePatterns p pats) := by
  intro ps
  induction ps with
  | nil => simp
  | cons p rest ih =>
    by_cases hk : k ∈ shas
    · simp only [List.map_cons, List.filterMap_cons]
      have he : emitDecision shas pats (k, p) = none := by simp [emitDecision, hk]
      rw [he, ih]
      simp [hk]
    · by_cases hp : matchesIgnorePatterns p pats
      · simp only [List.map_cons, List.filterMap_cons]
        have he : emitDecision shas pats (k, p) = none := by simp [emitDecision, hk, hp]
        rw [he, ih]
        simp [hk, List.filter_cons, hp]
      · simp only [List.map_cons, List.filterMap_cons]
        have he : emitDecision shas pats (k, p) = some p := by simp [emitDecision, hk, hp]
        rw [he, ih]
        simp [hk, List.filter_cons, hp]

theorem print_unique_paths_eq_filterMap (shas : Finset Str) (pats : List Str) :
    ∀ m : List (Str × List Str),
      print_unique_paths m shas pats = (mapPairs m).filterMap (emitDecision shas pats) := by
  intro m
  induction m with
  | nil => rfl
  | cons g rest ih =>
    obtain ⟨k, ps⟩ := g
    by_cases hk : k ∈ shas
    · have h1 : print_unique_paths ((k, ps) :: rest) shas pats =
          print_unique_paths rest shas pats := by
        simp [print_unique_paths, hk]
      have h2 : mapPairs ((k, ps) :: rest) = ps.map (fun p => (k, p)) ++ mapPairs rest := rfl
      rw [h1, h2, List.filterMap_append, pairsGroup_filterMap, if_pos hk, List.nil_append, ih]
    · have h1 : print_unique_paths ((k, ps) :: rest) shas pats =
          emitPaths ps pats ++ print_unique_paths rest shas pats := by
        simp [print_unique_paths, hk]
      have h2 : mapPairs ((k, ps) :: rest) = ps.map (fun p => (k, p)) ++ mapPairs rest := rfl
      rw [h1, h2, List.filterMap_append, pairsGroup_filterMap, if_neg hk, ih,
        emitPaths_eq_filter]

theorem mapPairs_insertPath (sha p : Str) :
    ∀ m : List (Str × List Str),
      (mapPairs (insertPath m sha p)).Perm (mapPairs m ++ [(sha, p)]) := by
  intro m
  induction m with
  | nil => simp [insertPath, mapPairs]
  | cons g rest ih =>
    obtain ⟨k, ps⟩ := g
    by_cases hk : k = sha
    · subst hk
      have h1 : insertPath ((k, ps) :: rest) k p = (k, ps ++ [p]) :: rest := by
        simp [insertPath]
      rw [h1]
      show ((ps ++ [p]).map (fun q => (k, q)) ++ mapPairs rest).Perm
        ((ps.map (fun q => (k, q)) ++ mapPairs rest) ++ [(k, p)])
      rw [List.map_append, List.map_cons, List.map_nil, List.append_assoc, List.append_assoc]
      exact List.Perm.append_left _ List.perm_append_comm
    · have h1 : insertPath ((k, ps) :: rest) sha p = (k, ps) :: insertPath rest sha p := by
        simp [insertPath, hk]
      rw [h1]
      show (ps.map (fun q => (k, q)) ++ mapPairs (insertPath rest sha p)).Perm
        ((ps.map (fun q => (k, q)) ++ mapPairs rest) ++ [(sha, p)])
      rw [List.append_assoc]
      exact List.Perm.append_left _ ih

theorem buildMapGo_pairs :
    ∀ (lines : List Str) (m : List (Str × List Str)),
      (mapPairs (lines.foldl
          (fun m line =>
            match parseLine line with
            | none => m
            | some r => insertPath m r.1 r.2)
          m)).Perm
        (mapPairs m ++ lines.filterMap parseLine) := by
  intro lines
  induction lines with
  | nil => intro m; simp
  | cons line rest ih =>
    intro m
    rw [List.foldl_cons]
    rcases hpl : parseLine line with _ | r
    · rw [List.filterMap_cons_none hpl]
      exact ih m
    · rw [List.filterMap_cons_some hpl]
      refine (ih (insertPath m r.1 r.2)).trans ?_
      refine (List.Perm.append_right _ (mapPairs_insertPath r.1 r.2 m)).trans ?_
      rw [List.append_assoc, List.singleton_append]

/-- C9: on any primary listing, the unused `print_unique_paths` applied to the
sha-to-paths mapping built from the listing prints the same multiset of paths
as `process_primary_stream` (the grouping by sha may reorder, but the printed
paths agree with multiplicity). -/
theorem c9_print_unique_paths_refines_stream (lines : List Str) (shas : Finset Str)
    (pats : List Str) :
    (↑(print_unique_paths (build_primary_map lines) shas pats) : Multiset Str) =
      ↑(process_primary_stream lines shas pats) := by
  rw [Multiset.coe_eq_coe, print_unique_paths_eq_filterMap,
    process_primary_stream_eq_filterMap]
  have h1 : (mapPairs (build_primary_map lines)).Perm (lines.filterMap parseLine) := by
    have h0 := buildMapGo_pairs lines []
    rw [build_primary_map]
    simpa [mapPairs] using h0
  refine (h1.filterMap (emitDecision shas pats)).trans ?_
  rw [List.filterMap_filterMap]
